import Mathlib

/-!
Verification development for the mail ingestion-and-filtering pipeline of the
fe_scraping repository.  The Python sources under src/ are shallowly embedded:
text is List Char, raw byte payloads are List Nat, and the functions
normalize_text, html_to_text, reduce_noise, _decode_mime_words,
_extract_subject_and_body, _detect_blocked_attachment and filter_message are
translated into executable Lean definitions.  Library calls made by the source
(unicodedata.normalize, bytes.decode, email.header.decode_header) are modelled
at the repertoire the development needs; each such modelling choice is stated
in the doc comment of the corresponding definition.
-/

namespace FeScraping

/-! ## Character-level model

The pipeline works on Unicode text.  Characters are Lean Char; the character
transformations of text_normalizer.py are defined through their code points.
-/

/-- Whitespace test modelling the Python regex class \s (and str.strip) on
Unicode text: ASCII whitespace, the C1 and separator controls, NBSP, and the
Unicode space separators. -/
def isWsN (n : Nat) : Bool :=
  decide (n = 0x20 ∨ (9 ≤ n ∧ n ≤ 13) ∨ (0x1C ≤ n ∧ n ≤ 0x1F) ∨ n = 0x85 ∨
    n = 0xA0 ∨ n = 0x1680 ∨ (0x2000 ≤ n ∧ n ≤ 0x200A) ∨ n = 0x2028 ∨
    n = 0x2029 ∨ n = 0x202F ∨ n = 0x205F ∨ n = 0x3000)

/-- Whitespace test on Char. -/
def isWs (c : Char) : Bool := isWsN c.toNat

/-- Code-point part of the NFKC step of normalize_text
(unicodedata.normalize("NFKC", s)).  Modelled on the space and
fullwidth-forms repertoire: the ideographic space, NBSP and the typographic
spaces map to U+0020, and the fullwidth ASCII variants U+FF01-U+FF5E map to
their ASCII forms; every other code point is modelled as NFKC-stable. -/
def nfkcN (n : Nat) : Nat :=
  if n = 0x3000 ∨ n = 0xA0 ∨ (0x2000 ≤ n ∧ n ≤ 0x200A) ∨ n = 0x202F ∨ n = 0x205F then 0x20
  else if 0xFF01 ≤ n ∧ n ≤ 0xFF5E then n - 0xFEE0
  else n

/-- Code-point part of the kana unification step of normalize_text.  This is
the fallback branch of the source (jaconv absent): each hiragana in
U+3041-U+3096 is shifted by 0x60 onto its katakana form and every other
character passes through. -/
def kataN (n : Nat) : Nat :=
  if 0x3041 ≤ n ∧ n ≤ 0x3096 then n + 0x60 else n

/-- Code-point part of the unconditional lower-casing step of normalize_text
(s.lower()), modelled on the ASCII repertoire the source relies on for
keyword matching. -/
def lowerN (n : Nat) : Nat :=
  if 0x41 ≤ n ∧ n ≤ 0x5A then n + 0x20 else n

/-- NFKC step lifted to Char. -/
def nfkcChar (c : Char) : Char := Char.ofNat (nfkcN c.toNat)

/-- Kana unification step lifted to Char. -/
def kataChar (c : Char) : Char := Char.ofNat (kataN c.toNat)

/-- Lower-casing step lifted to Char. -/
def lowerChar (c : Char) : Char := Char.ofNat (lowerN c.toNat)

/-- ASCII lower-casing of a text value, modelling str.lower() as used on
content types and file extensions. -/
def lowerL (l : List Char) : List Char := l.map lowerChar

/-! ## Whitespace collapse and strip (the trim_spaces step) -/

/-- One pass of re.sub(r"\s+", " ", s): every maximal run of whitespace
characters is replaced by a single space.  The boolean records whether the
previous character belonged to a whitespace run. -/
def collapseWsAux : Bool → List Char → List Char
  | _, [] => []
  | prevWs, c :: cs =>
    if isWs c then
      if prevWs then collapseWsAux true cs
      else ' ' :: collapseWsAux true cs
    else c :: collapseWsAux false cs

/-- re.sub(r"\s+", " ", s). -/
def collapseWs (l : List Char) : List Char := collapseWsAux false l

/-- Remove a trailing run of characters satisfying p. -/
def dropTrail (p : Char → Bool) : List Char → List Char
  | [] => []
  | c :: cs =>
    match dropTrail p cs with
    | [] => if p c then [] else [c]
    | r => c :: r

/-- Python str.strip(): remove leading and trailing whitespace. -/
def stripSp (l : List Char) : List Char := dropTrail isWs (l.dropWhile isWs)

/-! ## normalize_text -/

/-- normalize_text from src/common/text_normalizer.py.  The source checks
`if not text: return ""`, then optionally NFKC-folds, optionally unifies
kana, unconditionally lower-cases, and optionally collapses and strips
whitespace. -/
def normalizeText (text : List Char) (toHalfWidth unifyKana trimSpaces : Bool) : List Char :=
  if text = [] then []
  else
    let s := if toHalfWidth then text.map nfkcChar else text
    let s := if unifyKana then s.map kataChar else s
    let s := s.map lowerChar
    if trimSpaces then stripSp (collapseWs s) else s

/-- The per-character composite applied by normalize_text before the
whitespace step: NFKC (if toHalfWidth), kana unification (if unifyKana),
then lower-casing. -/
def pipeChar (th uk : Bool) (c : Char) : Char :=
  lowerChar (if uk then kataChar (if th then nfkcChar c else c)
             else (if th then nfkcChar c else c))

/-- Code-point version of pipeChar. -/
def pipeN (th uk : Bool) (n : Nat) : Nat :=
  lowerN (if uk then kataN (if th then nfkcN n else n)
          else (if th then nfkcN n else n))

/-! ## Substring search (the Python `in` operator) -/

/-- Does the string start with the given pattern? -/
def startsWithL : List Char → List Char → Bool
  | [], _ => true
  | _ :: _, [] => false
  | p :: ps, c :: cs => p = c && startsWithL ps cs

/-- Python substring containment needle in haystack.  The empty needle is
contained in every haystack. -/
def containsSub (hay needle : List Char) : Bool :=
  (List.range (hay.length + 1)).any (fun i => startsWithL needle (hay.drop i))

/-! ## Byte-payload decoding

bytes.decode(charset, errors="ignore") as called by _extract_subject_and_body.
-/

/-- Is the byte a UTF-8 continuation byte? -/
def contB (b : Nat) : Bool := decide (0x80 ≤ b ∧ b < 0xC0)

/-- Well-formedness of the second byte of a three-byte sequence, including
the E0 (no overlong) and ED (no surrogate) restrictions. -/
def sec3Ok (b b2 : Nat) : Bool :=
  decide ((0x80 ≤ b2 ∧ b2 < 0xC0) ∧ (b = 0xE0 → 0xA0 ≤ b2) ∧ (b = 0xED → b2 < 0xA0))

/-- Well-formedness of the second byte of a four-byte sequence, including
the F0 (no overlong) and F4 (at most U+10FFFF) restrictions. -/
def sec4Ok (b b2 : Nat) : Bool :=
  decide ((0x80 ≤ b2 ∧ b2 < 0xC0) ∧ (b = 0xF0 → 0x90 ≤ b2) ∧ (b = 0xF4 → b2 < 0x90))

def char2 (b b2 : Nat) : Char := Char.ofNat ((b - 0xC0) * 0x40 + (b2 - 0x80))

def char3 (b b2 b3 : Nat) : Char :=
  Char.ofNat ((b - 0xE0) * 0x1000 + (b2 - 0x80) * 0x40 + (b3 - 0x80))

def char4 (b b2 b3 b4 : Nat) : Char :=
  Char.ofNat ((b - 0xF0) * 0x40000 + (b2 - 0x80) * 0x1000 + (b3 - 0x80) * 0x40 + (b4 - 0x80))

/-- UTF-8 decoding with errors="ignore": every maximal ill-formed subsequence
is dropped from the output.  Follows the standard UTF-8 well-formedness table
(lead-byte ranges C2-DF, E0-EF and F0-F4 with the second-byte restrictions
above); a truncated trailing sequence is dropped.  The four list patterns
only distinguish how many bytes remain. -/
def decodeUtf8Ignore : List Nat → List Char
  | [] => []
  | [b] => if b < 0x80 then [Char.ofNat b] else []
  | [b, b2] =>
    if b < 0x80 then Char.ofNat b :: decodeUtf8Ignore [b2]
    else if b < 0xC2 then decodeUtf8Ignore [b2]
    else if b < 0xE0 then (if contB b2 then [char2 b b2] else decodeUtf8Ignore [b2])
    else if b < 0xF0 then (if sec3Ok b b2 then [] else decodeUtf8Ignore [b2])
    else if b < 0xF5 then (if sec4Ok b b2 then [] else decodeUtf8Ignore [b2])
    else decodeUtf8Ignore [b2]
  | [b, b2, b3] =>
    if b < 0x80 then Char.ofNat b :: decodeUtf8Ignore [b2, b3]
    else if b < 0xC2 then decodeUtf8Ignore [b2, b3]
    else if b < 0xE0 then
      (if contB b2 then char2 b b2 :: decodeUtf8Ignore [b3] else decodeUtf8Ignore [b2, b3])
    else if b < 0xF0 then
      (if sec3Ok b b2 then (if contB b3 then [char3 b b2 b3] else decodeUtf8Ignore [b3])
       else decodeUtf8Ignore [b2, b3])
    else if b < 0xF5 then
      (if sec4Ok b b2 then (if contB b3 then [] else decodeUtf8Ignore [b3])
       else decodeUtf8Ignore [b2, b3])
    else decodeUtf8Ignore [b2, b3]
  | b :: b2 :: b3 :: b4 :: bs =>
    if b < 0x80 then Char.ofNat b :: decodeUtf8Ignore (b2 :: b3 :: b4 :: bs)
    else if b < 0xC2 then decodeUtf8Ignore (b2 :: b3 :: b4 :: bs)
    else if b < 0xE0 then
      (if contB b2 then char2 b b2 :: decodeUtf8Ignore (b3 :: b4 :: bs)
       else decodeUtf8Ignore (b2 :: b3 :: b4 :: bs))
    else if b < 0xF0 then
      (if sec3Ok b b2 then
        (if contB b3 then char3 b b2 b3 :: decodeUtf8Ignore (b4 :: bs)
         else decodeUtf8Ignore (b3 :: b4 :: bs))
       else decodeUtf8Ignore (b2 :: b3 :: b4 :: bs))
    else if b < 0xF5 then
      (if sec4Ok b b2 then
        (if contB b3 then
          (if contB b4 then char4 b b2 b3 b4 :: decodeUtf8Ignore bs
           else decodeUtf8Ignore (b4 :: bs))
         else decodeUtf8Ignore (b3 :: b4 :: bs))
       else decodeUtf8Ignore (b2 :: b3 :: b4 :: bs))
    else decodeUtf8Ignore (b2 :: b3 :: b4 :: bs)

/-- Follows the wording of the specification, for comparison with the code:
UTF-8 decoding in which every maximal ill-formed subsequence is replaced with
one U+FFFD replacement character (Python errors="replace"), instead of being
dropped. -/
def specReplaceDecode : List Nat → List Char
  | [] => []
  | b :: bs =>
    if b < 0x80 then Char.ofNat b :: specReplaceDecode bs
    else if b < 0xC2 then '�' :: specReplaceDecode bs
    else if b < 0xE0 then
      match bs with
      | [] => ['�']
      | b2 :: rest =>
        if 0x80 ≤ b2 ∧ b2 < 0xC0 then
          Char.ofNat ((b - 0xC0) * 0x40 + (b2 - 0x80)) :: specReplaceDecode rest
        else '�' :: specReplaceDecode (b2 :: rest)
    else if b < 0xF0 then
      match bs with
      | [] => ['�']
      | [b2] =>
        if (0x80 ≤ b2 ∧ b2 < 0xC0) ∧ (b = 0xE0 → 0xA0 ≤ b2) ∧ (b = 0xED → b2 < 0xA0) then
          ['�']
        else '�' :: specReplaceDecode [b2]
      | b2 :: b3 :: rest =>
        if (0x80 ≤ b2 ∧ b2 < 0xC0) ∧ (b = 0xE0 → 0xA0 ≤ b2) ∧ (b = 0xED → b2 < 0xA0) then
          if 0x80 ≤ b3 ∧ b3 < 0xC0 then
            Char.ofNat ((b - 0xE0) * 0x1000 + (b2 - 0x80) * 0x40 + (b3 - 0x80)) ::
              specReplaceDecode rest
          else '�' :: specReplaceDecode (b3 :: rest)
        else '�' :: specReplaceDecode (b2 :: b3 :: rest)
    else if b < 0xF5 then
      match bs with
      | [] => ['�']
      | [b2] =>
        if (0x80 ≤ b2 ∧ b2 < 0xC0) ∧ (b = 0xF0 → 0x90 ≤ b2) ∧ (b = 0xF4 → b2 < 0x90) then
          ['�']
        else '�' :: specReplaceDecode [b2]
      | [b2, b3] =>
        if (0x80 ≤ b2 ∧ b2 < 0xC0) ∧ (b = 0xF0 → 0x90 ≤ b2) ∧ (b = 0xF4 → b2 < 0x90) then
          if 0x80 ≤ b3 ∧ b3 < 0xC0 then ['�'] else '�' :: specReplaceDecode [b3]
        else '�' :: specReplaceDecode [b2, b3]
      | b2 :: b3 :: b4 :: rest =>
        if (0x80 ≤ b2 ∧ b2 < 0xC0) ∧ (b = 0xF0 → 0x90 ≤ b2) ∧ (b = 0xF4 → b2 < 0x90) then
          if 0x80 ≤ b3 ∧ b3 < 0xC0 then
            if 0x80 ≤ b4 ∧ b4 < 0xC0 then
              Char.ofNat ((b - 0xF0) * 0x40000 + (b2 - 0x80) * 0x1000 +
                (b3 - 0x80) * 0x40 + (b4 - 0x80)) :: specReplaceDecode rest
            else '�' :: specReplaceDecode (b4 :: rest)
          else '�' :: specReplaceDecode (b3 :: b4 :: rest)
        else '�' :: specReplaceDecode (b2 :: b3 :: b4 :: rest)
    else '�' :: specReplaceDecode bs

/-- The declared-charset name used as the default by the source. -/
def utf8Name : List Char := "utf-8".toList

/-- payload.decode(charset, errors="ignore"): none models a LookupError for a
codec name the interpreter does not know (the source catches it).  Modelled:
the utf-8 codec; any other declared charset name is treated as unknown. -/
def decodeWithCharset (cs : List Char) (payload : List Nat) : Option (List Char) :=
  if cs = utf8Name then some (decodeUtf8Ignore payload) else none

/-! ## html_to_text -/

/-- One pass of re.sub applied to the pattern matching a lt character, one or
more non-gt characters, then a gt character; each match is replaced by a
single space.  This is the fallback branch of html_to_text in
src/common/text_normalizer.py (bs4 absent).  Fuel is the remaining input
length plus one; each step consumes at least one character. -/
def stripTagsGo : Nat → List Char → List Char
  | 0, _ => []
  | _ + 1, [] => []
  | fuel + 1, c :: cs =>
    if c = '<' then
      let inside := cs.takeWhile (fun d => !(d = '>'))
      if inside.length = 0 then c :: stripTagsGo fuel cs
      else if inside.length < cs.length then ' ' :: stripTagsGo fuel (cs.drop (inside.length + 1))
      else c :: stripTagsGo fuel cs
    else c :: stripTagsGo fuel cs

/-- html_to_text from src/common/text_normalizer.py, regex-fallback branch:
returns the empty string for empty input, otherwise replaces every tag-shaped
run with a single space. -/
def htmlToText (html : List Char) : List Char :=
  if html = [] then [] else stripTagsGo (html.length + 1) html

/-! ## The message model

A ParsedMessage is a tree of MIME parts; the source only consumes it through
msg.walk() (the part sequence in document order), msg.is_multipart(), and,
for a single-part message, the fields of the message itself.  selfPart holds
the content type, disposition, filename, charset and decoded byte payload of
the message object itself; subParts holds the remaining parts of the walk in
document order.
-/

structure Part where
  contentTypeRaw : List Char
  dispositionRaw : List Char
  filename : Option (List Char)
  charset : Option (List Char)
  payload : List Nat
deriving DecidableEq

structure MailMessage where
  subjectRaw : List Char
  isMultipart : Bool
  selfPart : Part
  subParts : List Part
deriving DecidableEq

/-- msg.walk(): the message itself followed by its descendant parts. -/
def walk (m : MailMessage) : List Part := m.selfPart :: m.subParts

/-- _decode_mime_words from src/filters/mail_filter.py.  The source returns
the empty string for a falsy value and otherwise decodes the RFC 2047 encoded
words of the header, falling back to the raw value on failure.  Modelled:
email.header.decode_header on a header value containing no encoded words
yields the value as a single unencoded chunk, so the rejoined result is the
value itself; encoded-word parsing is not modelled. -/
def decodeMimeWords (value : List Char) : List Char :=
  if value = [] then [] else value

/-- part.get_payload(decode=True) followed by decode(charset or "utf-8",
errors="ignore"); none models the exception path the source catches. -/
def decodePartText (p : Part) : Option (List Char) :=
  decodeWithCharset (p.charset.getD utf8Name) p.payload

def textPlainType : List Char := "text/plain".toList

def textHtmlType : List Char := "text/html".toList

def textSlashRun : List Char := "text/".toList

def attachmentWord : List Char := "attachment".toList

/-- The multipart collection loop of _extract_subject_and_body: walk every
part; for each part whose lowered content type starts with text/ and whose
lowered Content-Disposition does not contain attachment, decode the payload
(skipping the part when decoding raises) and append it to the text/plain or
text/html list according to the exact content type. -/
def collectTextParts : List Part → List (List Char) × List (List Char)
  | [] => ([], [])
  | p :: rest =>
    let acc := collectTextParts rest
    let ctype := lowerL p.contentTypeRaw
    let disp := lowerL p.dispositionRaw
    if startsWithL textSlashRun ctype && !containsSub disp attachmentWord then
      match decodePartText p with
      | none => acc
      | some text =>
        if ctype = textPlainType then (text :: acc.1, acc.2)
        else if ctype = textHtmlType then (acc.1, text :: acc.2)
        else acc
    else acc

/-- The single-part branch of _extract_subject_and_body: decode the payload of
the message itself (an exception yields the empty string, which is still
appended), then classify by the exact content type.  The disposition is not
consulted on this branch, as in the source. -/
def singleParts (msg : MailMessage) : List (List Char) × List (List Char) :=
  let text := (decodePartText msg.selfPart).getD []
  let ctype := lowerL msg.selfPart.contentTypeRaw
  if ctype = textPlainType then ([text], [])
  else if ctype = textHtmlType then ([], [text])
  else ([], [])

/-- The text/plain and text/html part lists gathered by
_extract_subject_and_body before body selection. -/
def collectedParts (msg : MailMessage) : List (List Char) × List (List Char) :=
  if msg.isMultipart then collectTextParts (walk msg) else singleParts msg

def nlStr : List Char := ['\n']

/-- _extract_subject_and_body from src/filters/mail_filter.py: decode the
Subject header, gather the text parts, then select the body: the
newline-join of the text/plain parts when any exist, otherwise html_to_text
of the newline-join of the text/html parts, otherwise the empty string. -/
def extractSubjectAndBody (msg : MailMessage) : List Char × List Char :=
  let subject := decodeMimeWords msg.subjectRaw
  let parts := collectedParts msg
  let body :=
    if parts.1 ≠ [] then List.intercalate nlStr parts.1
    else if parts.2 ≠ [] then htmlToText (List.intercalate nlStr parts.2)
    else []
  (subject, body)

/-! ## _detect_blocked_attachment -/

/-- IMAGE_EXTS from src/filters/mail_filter.py. -/
def imageExts : List (List Char) :=
  ["jpg", "jpeg", "png", "gif", "bmp", "webp"].map String.toList

def imageMimeStart : List Char := "image/".toList

/-- Extension derivation: fname.rsplit(".", 1)[-1].lower() when the filename
contains a dot, the empty string otherwise. -/
def extOf (fname : List Char) : List Char :=
  if '.' ∈ fname then lowerL ((fname.reverse.takeWhile (fun c => !(c = '.'))).reverse)
  else []

/-- The per-part body of the loop of _detect_blocked_attachment: skip parts
without a filename, skip parts whose content type is an image type, skip
filenames whose extension is an image extension, and report the decoded
filename when the extension is in the blocked set. -/
def partBlocked (blockedExts : List (List Char)) (p : Part) : Option (List Char) :=
  match p.filename with
  | none => none
  | some filename =>
    if filename = [] then none
    else if startsWithL imageMimeStart (lowerL p.contentTypeRaw) then none
    else
      let fname := decodeMimeWords filename
      let ext := extOf fname
      if ext ∈ imageExts then none
      else if ext ∈ blockedExts then some fname
      else none

/-- _detect_blocked_attachment from src/filters/mail_filter.py: the first
part of the walk reported by the per-part check, if any. -/
def detectBlockedAttachment (msg : MailMessage) (blockedExts : List (List Char)) :
    Option (List Char) :=
  (walk msg).findSome? (partBlocked blockedExts)

/-! ## filter_message -/

/-- The rule configuration consumed by filter_message.  none models a missing
key (or a key holding None) in the loaded YAML dictionary; the source reads
each with a default. -/
structure Config where
  blockedExtensions : Option (List (List Char))
  blocklist : Option (List (List Char))
  toHalfWidth : Option Bool
  unifyKana : Option Bool
  trimSpaces : Option Bool
deriving DecidableEq

/-- FilterResult from src/filters/mail_filter.py. -/
structure FilterResult where
  passThrough : Bool
  reason : Option (List Char)
  detail : Option (List Char)
  subject : List Char
deriving DecidableEq

def reasonAttachment : List Char := "attachment".toList

def reasonKeyword : List Char := "keyword".toList

/-- filter_message from src/filters/mail_filter.py: read the rules with
defaults, run the attachment check, extract subject and body, return the
attachment verdict when a blocked attachment was found, otherwise normalize
subject, body and keywords, and return the first keyword verdict or the pass
verdict. -/
def filterMessage (msg : MailMessage) (cfg : Config) : FilterResult :=
  let blockedExts := cfg.blockedExtensions.getD []
  let keywords := cfg.blocklist.getD []
  let toHalf := cfg.toHalfWidth.getD true
  let unifyK := cfg.unifyKana.getD true
  let trimSp := cfg.trimSpaces.getD true
  let blockedFile := detectBlockedAttachment msg blockedExts
  let sb := extractSubjectAndBody msg
  match blockedFile with
  | some f => ⟨false, some reasonAttachment, some f, sb.1⟩
  | none =>
    let subjectNorm := normalizeText sb.1 toHalf unifyK trimSp
    let bodyNorm := normalizeText sb.2 toHalf unifyK trimSp
    let keywordNorms := keywords.map (fun k => normalizeText k toHalf unifyK trimSp)
    let haystack := subjectNorm ++ ' ' :: bodyNorm
    match keywordNorms.find? (fun kw => !kw.isEmpty && containsSub haystack kw) with
    | some kw => ⟨false, some reasonKeyword, some kw, sb.1⟩
    | none => ⟨true, none, none, sb.1⟩

/-- The keyword-hit test of filter_message, as a standalone predicate: some
keyword of the blocklist has a non-empty normalized form contained in the
space-joined normalized subject and body. -/
def keywordHit (msg : MailMessage) (cfg : Config) : Bool :=
  let toHalf := cfg.toHalfWidth.getD true
  let unifyK := cfg.unifyKana.getD true
  let trimSp := cfg.trimSpaces.getD true
  let sb := extractSubjectAndBody msg
  let haystack := normalizeText sb.1 toHalf unifyK trimSp ++ ' ' ::
    normalizeText sb.2 toHalf unifyK trimSp
  ((cfg.blocklist.getD []).map (fun k => normalizeText k toHalf unifyK trimSp)).any
    (fun kw => !kw.isEmpty && containsSub haystack kw)

/-! ## reduce_noise

The ordered rule list _noise_rules of src/filters/noise_reducer.py.  Each rule
is one re.sub pass; the rules below implement the leftmost-match semantics of
each pattern directly.
-/

/-- Does the signature pattern match at position i: a newline, two or more
dashes, then a whitespace run leading to another newline (the pattern
continues .*$ with DOTALL, which always reaches the end of the text). -/
def sigMatchAt (s : List Char) (i : Nat) : Bool :=
  (s.drop i).head? = some '\n' &&
    (let rest := s.drop (i + 1)
     let dashes := rest.takeWhile (fun c => c == '-')
     decide (2 ≤ dashes.length) &&
       ((rest.drop dashes.length).takeWhile isWs).contains '\n')

/-- Rule 1, the signature strip: everything from the leftmost match of the
pattern newline dashes whitespace newline onward is removed. -/
def sigRule (s : List Char) : List Char :=
  match (List.range s.length).find? (fun i => sigMatchAt s i) with
  | some i => s.take i
  | none => s

/-- Rule 2 of _noise_rules.  The source pattern is (?is) newline, a
start-of-line anchor, then three-or-more equals signs to the end.  Without
re.MULTILINE the anchor matches only at position zero, but the preceding
newline forces every candidate anchor position past zero, so the pattern
matches nowhere and the substitution is the identity. -/
def footerRule (s : List Char) : List Char := s

/-- First position at or after start where pat occurs in s. -/
def findOccFrom (s pat : List Char) (start : Nat) : Option Nat :=
  (List.range (s.length + 1)).find? (fun j => decide (start ≤ j) && startsWithL pat (s.drop j))

/-- Lazy end position of a chain of literals, each found at the earliest
position at or after the previous end (the lazy dot-star between literals of
the source patterns). -/
def chainEnd (s : List Char) : List (List Char) → Nat → Option Nat
  | [], pos => some pos
  | lit :: lits, pos =>
    match findOccFrom s lit pos with
    | none => none
    | some j => chainEnd s lits (j + lit.length)

/-- End position of a literal chain anchored at p, if it matches there. -/
def chainAt (s : List Char) (lits : List (List Char)) (p : Nat) : Option Nat :=
  match lits with
  | [] => some p
  | lit :: rest =>
    if startsWithL lit (s.drop p) then chainEnd s rest (p + lit.length) else none

/-- One re.sub pass for a pattern of the shape literal, lazy dot-star,
literal, ..., lazy dot-star, end-of-text anchor, under the i and s flags,
with the empty replacement: the leftmost match is removed; the lazy final
dot-star stops just before a final newline, which is therefore kept.
Matching is done on the ASCII-lowered text, splicing on the original. -/
def truncRule (lits : List (List Char)) (s : List Char) : List Char :=
  let t := lowerL s
  match (List.range t.length).find? (fun p => (chainAt t lits p).isSome) with
  | none => s
  | some p =>
    match chainAt t lits p with
    | none => s
    | some kEnd =>
      s.take p ++ (if s.getLast? = some '\n' ∧ kEnd ≤ s.length - 1 then ['\n'] else [])

def jpDisclaimerLits : List (List Char) :=
  ["このメールは".toList, "機密".toList, "含まれている".toList]

def enDisclaimerLits : List (List Char) := ["this email".toList, "confidential".toList]

def jpUnsubLits : List (List Char) := ["配信停止".toList, "こちら".toList]

def enUnsubLits : List (List Char) := ["unsubscribe".toList]

/-- Rule 7, quoted-line removal: at each start-of-line position, a whitespace
run (which may span blank lines) followed by a quote mark consumes through
the end of that line; the terminating newline is kept.  Fuel is the input
length plus one; every step consumes at least one character. -/
def quotedGo : Nat → Bool → List Char → List Char
  | 0, _, _ => []
  | _ + 1, _, [] => []
  | fuel + 1, atStart, c :: cs =>
    if atStart then
      let ws := (c :: cs).takeWhile isWs
      let rest := (c :: cs).drop ws.length
      if rest.head? = some '>' then
        quotedGo fuel false ((rest.drop 1).dropWhile (fun d => !(d = '\n')))
      else c :: quotedGo fuel (c = '\n') cs
    else c :: quotedGo fuel (c = '\n') cs

def quotedRule (s : List Char) : List Char := quotedGo (s.length + 1) true s

/-- Does the Gmail quotation-header pattern match at position p: a newline,
the word On, any text, the word wrote with a colon, then only whitespace to
the end (matching is case-insensitive in the source). -/
def gmailMatchAt (t : List Char) (p : Nat) : Bool :=
  startsWithL "\non ".toList (t.drop p) &&
    (List.range (t.length + 1)).any (fun j =>
      decide (p + 4 ≤ j) && startsWithL " wrote:".toList (t.drop j) &&
        (t.drop (j + 7)).all isWs)

/-- Rule 8: everything from the leftmost Gmail quotation header onward is
removed. -/
def gmailRule (s : List Char) : List Char :=
  let t := lowerL s
  match (List.range t.length).find? (fun p => gmailMatchAt t p) with
  | some p => s.take p
  | none => s

/-- Rule 9, re.sub of three-or-more newlines to two: a newline whose two
immediate predecessors in the original text are newlines is dropped.  The
two tracked characters are the previous two characters of the input. -/
def blankGo : Char → Char → List Char → List Char
  | _, _, [] => []
  | a, b, c :: cs =>
    if a = '\n' ∧ b = '\n' ∧ c = '\n' then blankGo b c cs
    else c :: blankGo b c cs

def blankRule (s : List Char) : List Char := blankGo 'x' 'x' s

/-- reduce_noise from src/filters/noise_reducer.py: the empty string for
falsy input, otherwise the nine rules applied in order followed by
str.strip(). -/
def reduceNoise (s : List Char) : List Char :=
  if s = [] then []
  else
    stripSp (blankRule (gmailRule (quotedRule (truncRule enUnsubLits
      (truncRule jpUnsubLits (truncRule enDisclaimerLits (truncRule jpDisclaimerLits
        (footerRule (sigRule s)))))))))

/-- The configuration with every empty or whitespace-only keyword removed
from its blocklist. -/
def dropWsKeywords (cfg : Config) : Config :=
  { cfg with blocklist := some ((cfg.blocklist.getD []).filter (fun k => !(k.all isWs))) }

/-! ## Concrete messages and configurations used by witnesses and
counterexamples -/

/-- Byte payload of a pure-ASCII string (its UTF-8 encoding). -/
def asciiBytes (s : String) : List Nat := s.toList.map Char.toNat

/-- A multipart container root part. -/
def mixedRoot : Part :=
  { contentTypeRaw := "multipart/mixed".toList, dispositionRaw := [], filename := none,
    charset := none, payload := [] }

/-- A plain-text part with the given ASCII content. -/
def plainPart (s : String) : Part :=
  { contentTypeRaw := "text/plain".toList, dispositionRaw := [], filename := none,
    charset := none, payload := asciiBytes s }

/-- An html part with the given ASCII content. -/
def htmlPart (s : String) : Part :=
  { contentTypeRaw := "text/html".toList, dispositionRaw := [], filename := none,
    charset := none, payload := asciiBytes s }

/-- A message with a text part mentioning a keyword and an exe attachment. -/
def exePart : Part :=
  { contentTypeRaw := "application/octet-stream".toList,
    dispositionRaw := "attachment; filename=run.exe".toList,
    filename := some "run.exe".toList, charset := none, payload := [] }

def msgC1 : MailMessage :=
  { subjectRaw := "weekly plan".toList, isMultipart := true, selfPart := mixedRoot,
    subParts := [plainPart "please see the agenda", exePart] }

def cfgC1 : Config :=
  { blockedExtensions := some ["exe".toList], blocklist := some ["agenda".toList],
    toHalfWidth := none, unifyKana := none, trimSpaces := none }

/-- A single-part plain-text message with empty subject and empty payload. -/
def msgEmptyPlain : MailMessage :=
  { subjectRaw := [], isMultipart := false, selfPart := plainPart "", subParts := [] }

/-- A configuration whose only blocklist keyword is a single space and whose
trim_spaces flag is off. -/
def cfgWsKeyword : Config :=
  { blockedExtensions := none, blocklist := some [[' ']],
    toHalfWidth := none, unifyKana := none, trimSpaces := some false }

/-- A text/plain part whose declared charset is unknown to the codec
registry, so its payload decoding raises and the part is skipped. -/
def bogusCharsetPart : Part :=
  { contentTypeRaw := "text/plain".toList, dispositionRaw := [], filename := none,
    charset := some "bogus".toList, payload := asciiBytes "secret" }

def msgBogusCharset : MailMessage :=
  { subjectRaw := [], isMultipart := true, selfPart := mixedRoot,
    subParts := [bogusCharsetPart, htmlPart "hello from html"] }

/-- A multipart message with one decodable plain part and one html part. -/
def msgPlainAndHtml : MailMessage :=
  { subjectRaw := [], isMultipart := true, selfPart := mixedRoot,
    subParts := [plainPart "hi", htmlPart "<b>zap</b>"] }

/-- A multipart message with two decodable plain parts. -/
def msgTwoPlain : MailMessage :=
  { subjectRaw := [], isMultipart := true, selfPart := mixedRoot,
    subParts := [plainPart "a", plainPart "b"] }

/-- An attachment part whose filename has no dot. -/
def readmePart : Part :=
  { contentTypeRaw := "application/octet-stream".toList,
    dispositionRaw := "attachment".toList,
    filename := some "README".toList, charset := none, payload := [] }

def msgDotless : MailMessage :=
  { subjectRaw := [], isMultipart := true, selfPart := mixedRoot, subParts := [readmePart] }

/-- A configuration whose blocked-extension set contains the empty string. -/
def cfgEmptyStringExt : Config :=
  { blockedExtensions := some [[]], blocklist := none,
    toHalfWidth := none, unifyKana := none, trimSpaces := none }

/-- An attachment part with an image-named filename but a non-image declared
content type. -/
def virusJpgPart : Part :=
  { contentTypeRaw := "application/octet-stream".toList,
    dispositionRaw := "attachment".toList,
    filename := some "virus.jpg".toList, charset := none, payload := [] }

/-- A text part whose payload is a single invalid UTF-8 byte. -/
def badBytesPart : Part :=
  { contentTypeRaw := "text/plain".toList, dispositionRaw := [], filename := none,
    charset := none, payload := [0xFF] }

/-! ## Character-level lemmas -/

theorem toNat_ofNat_of_valid (n : Nat) (h : n.isValidChar) : (Char.ofNat n).toNat = n := by
  unfold Char.ofNat
  rw [dif_pos h]
  rfl

theorem nfkcN_valid (n : Nat) (h : n.isValidChar) : (nfkcN n).isValidChar := by
  unfold nfkcN
  rcases h with h | h
  all_goals split_ifs <;> (first | (left; omega) | (right; omega))

theorem kataN_valid (n : Nat) (h : n.isValidChar) : (kataN n).isValidChar := by
  unfold kataN
  rcases h with h | h
  all_goals split_ifs <;> (first | (left; omega) | (right; omega))

theorem lowerN_valid (n : Nat) (h : n.isValidChar) : (lowerN n).isValidChar := by
  unfold lowerN
  rcases h with h | h
  all_goals split_ifs <;> (first | (left; omega) | (right; omega))

theorem char_toNat_valid (c : Char) : c.toNat.isValidChar := c.valid

theorem toNat_nfkcChar (c : Char) : (nfkcChar c).toNat = nfkcN c.toNat :=
  toNat_ofNat_of_valid _ (nfkcN_valid _ (char_toNat_valid c))

theorem toNat_kataChar (c : Char) : (kataChar c).toNat = kataN c.toNat :=
  toNat_ofNat_of_valid _ (kataN_valid _ (char_toNat_valid c))

theorem toNat_lowerChar (c : Char) : (lowerChar c).toNat = lowerN c.toNat :=
  toNat_ofNat_of_valid _ (lowerN_valid _ (char_toNat_valid c))

/-- The kana/width part of the per-character pipeline, before lower-casing. -/
def kanaHalfN (th uk : Bool) (n : Nat) : Nat :=
  if uk then kataN (if th then nfkcN n else n) else (if th then nfkcN n else n)

theorem pipeN_eq (th uk : Bool) (n : Nat) : pipeN th uk n = lowerN (kanaHalfN th uk n) := rfl

theorem kanaHalfN_valid (th uk : Bool) (n : Nat) (h : n.isValidChar) :
    (kanaHalfN th uk n).isValidChar := by
  have h1 : (if th then nfkcN n else n).isValidChar := by
    cases th
    · simpa using h
    · simpa using nfkcN_valid n h
  unfold kanaHalfN
  cases uk
  · simpa using h1
  · simpa using kataN_valid _ h1

theorem pipeN_valid (th uk : Bool) (n : Nat) (h : n.isValidChar) :
    (pipeN th uk n).isValidChar := by
  rw [pipeN_eq]
  exact lowerN_valid _ (kanaHalfN_valid th uk n h)

theorem pipeChar_eq_ofNat (th uk : Bool) (c : Char) :
    pipeChar th uk c = Char.ofNat (pipeN th uk c.toNat) := by
  unfold pipeChar pipeN lowerChar
  congr 1
  cases th <;> cases uk <;> simp [toNat_kataChar, toNat_nfkcChar]

theorem toNat_pipeChar (th uk : Bool) (c : Char) :
    (pipeChar th uk c).toNat = pipeN th uk c.toNat := by
  rw [pipeChar_eq_ofNat, toNat_ofNat_of_valid _ (pipeN_valid th uk _ (char_toNat_valid c))]

theorem lowerN_out (m : Nat) : lowerN m = m ∨ (0x61 ≤ lowerN m ∧ lowerN m ≤ 0x7A) := by
  unfold lowerN
  split_ifs <;> omega

theorem lowerN_fix (m : Nat) (h : ¬(0x41 ≤ m ∧ m ≤ 0x5A)) : lowerN m = m := by
  unfold lowerN
  split_ifs <;> omega

theorem kanaHalfN_out (th uk : Bool) (n : Nat) :
    kanaHalfN th uk n = n ∨ (0x20 ≤ kanaHalfN th uk n ∧ kanaHalfN th uk n ≤ 0x7E) ∨
      (0x30A1 ≤ kanaHalfN th uk n ∧ kanaHalfN th uk n ≤ 0x30F6) := by
  unfold kanaHalfN nfkcN kataN
  cases th <;> cases uk <;>
    simp only [Bool.false_eq_true, if_false, if_true] <;>
    (try exact Or.inl trivial) <;>
    (split_ifs <;> omega)

theorem kanaHalfN_fix (th uk : Bool) (m : Nat)
    (h : (0x20 ≤ m ∧ m ≤ 0x7E) ∨ (0x30A1 ≤ m ∧ m ≤ 0x30F6)) : kanaHalfN th uk m = m := by
  unfold kanaHalfN nfkcN kataN
  cases th <;> cases uk <;>
    simp only [Bool.false_eq_true, if_false, if_true] <;>
    (split_ifs <;> omega)

theorem pipeN_idem (th uk : Bool) (n : Nat) :
    pipeN th uk (pipeN th uk n) = pipeN th uk n := by
  rw [pipeN_eq, pipeN_eq]
  rcases lowerN_out (kanaHalfN th uk n) with h | h
  · rw [h]
    rcases kanaHalfN_out th uk n with h2 | h2 | h2
    · rw [h2] at h ⊢
      rw [h2, h]
    · rw [kanaHalfN_fix th uk _ (Or.inl h2), h]
    · rw [kanaHalfN_fix th uk _ (Or.inr h2), h]
  · rw [kanaHalfN_fix th uk _ (Or.inl (by omega)), lowerN_fix _ (by omega)]

theorem pipeChar_idem (th uk : Bool) (c : Char) :
    pipeChar th uk (pipeChar th uk c) = pipeChar th uk c := by
  rw [pipeChar_eq_ofNat th uk (pipeChar th uk c), toNat_pipeChar, pipeN_idem,
    ← pipeChar_eq_ofNat]

theorem pipeChar_space (th uk : Bool) : pipeChar th uk ' ' = ' ' := by
  cases th <;> cases uk <;> decide

theorem nfkcN_ws (n : Nat) (h : isWsN n = true) : isWsN (nfkcN n) = true := by
  simp only [isWsN, decide_eq_true_eq] at h ⊢
  unfold nfkcN
  split_ifs <;> omega

theorem kataN_ws (n : Nat) (h : isWsN n = true) : isWsN (kataN n) = true := by
  simp only [isWsN, decide_eq_true_eq] at h ⊢
  unfold kataN
  split_ifs <;> omega

theorem lowerN_ws (n : Nat) (h : isWsN n = true) : isWsN (lowerN n) = true := by
  simp only [isWsN, decide_eq_true_eq] at h ⊢
  unfold lowerN
  split_ifs <;> omega

theorem isWs_pipeChar_of_isWs (th uk : Bool) (c : Char) (h : isWs c = true) :
    isWs (pipeChar th uk c) = true := by
  rw [isWs, toNat_pipeChar, pipeN_eq]
  rw [isWs] at h
  apply lowerN_ws
  unfold kanaHalfN
  cases th <;> cases uk <;> simp only [Bool.false_eq_true, if_false, if_true]
  · exact h
  · exact kataN_ws _ h
  · exact nfkcN_ws _ h
  · exact kataN_ws _ (nfkcN_ws _ h)

/-! ## Whitespace-collapse lemmas -/

theorem collapse_cons_ws_t (c : Char) (cs : List Char) (hc : isWs c = true) :
    collapseWsAux true (c :: cs) = collapseWsAux true cs := by
  simp [collapseWsAux, hc]

theorem collapse_cons_ws_f (c : Char) (cs : List Char) (hc : isWs c = true) :
    collapseWsAux false (c :: cs) = ' ' :: collapseWsAux true cs := by
  simp [collapseWsAux, hc]

theorem collapse_cons_nws (b : Bool) (c : Char) (cs : List Char) (hc : isWs c = false) :
    collapseWsAux b (c :: cs) = c :: collapseWsAux false cs := by
  cases b <;> simp [collapseWsAux, hc]

theorem collapseWsAux_length (b : Bool) (l : List Char) :
    (collapseWsAux b l).length ≤ l.length := by
  induction l generalizing b with
  | nil => simp [collapseWsAux]
  | cons c cs ih =>
    by_cases hc : isWs c = true
    · cases b
      · rw [collapse_cons_ws_f c cs hc]
        simpa using ih true
      · rw [collapse_cons_ws_t c cs hc]
        exact Nat.le_trans (ih true) (Nat.le_succ _)
    · rw [collapse_cons_nws b c cs (by simpa using hc)]
      simpa using ih false

theorem mem_collapseWsAux (b : Bool) (l : List Char) (c : Char)
    (h : c ∈ collapseWsAux b l) : c = ' ' ∨ c ∈ l := by
  induction l generalizing b with
  | nil => simp [collapseWsAux] at h
  | cons d ds ih =>
    by_cases hd : isWs d = true
    · cases b
      · rw [collapse_cons_ws_f d ds hd] at h
        rcases List.mem_cons.mp h with h1 | h1
        · exact Or.inl h1
        · rcases ih _ h1 with h2 | h2
          · exact Or.inl h2
          · exact Or.inr (List.mem_cons_of_mem _ h2)
      · rw [collapse_cons_ws_t d ds hd] at h
        rcases ih _ h with h1 | h1
        · exact Or.inl h1
        · exact Or.inr (List.mem_cons_of_mem _ h1)
    · rw [collapse_cons_nws b d ds (by simpa using hd)] at h
      rcases List.mem_cons.mp h with h1 | h1
      · exact Or.inr (h1 ▸ List.mem_cons_self _ _)
      · rcases ih _ h1 with h2 | h2
        · exact Or.inl h2
        · exact Or.inr (List.mem_cons_of_mem _ h2)

theorem collapseWsAux_idem (l : List Char) :
    ∀ b, collapseWsAux b (collapseWsAux b l) = collapseWsAux b l := by
  induction l with
  | nil => intro b; rfl
  | cons c cs ih =>
    intro b
    by_cases hc : isWs c = true
    · cases b
      · rw [collapse_cons_ws_f c cs hc,
          collapse_cons_ws_f ' ' (collapseWsAux true cs) (by decide), ih true]
      · rw [collapse_cons_ws_t c cs hc]
        exact ih true
    · have hc' : isWs c = false := by simpa using hc
      rw [collapse_cons_nws b c cs hc', collapse_cons_nws b c (collapseWsAux false cs) hc',
        ih false]

theorem inv_collapse_true (c : Char) (cs : List Char)
    (h : collapseWsAux true (c :: cs) = c :: cs) :
    isWs c = false ∧ collapseWsAux false cs = cs := by
  by_cases hc : isWs c = true
  · exfalso
    rw [collapse_cons_ws_t c cs hc] at h
    have := collapseWsAux_length true cs
    have hlen := congrArg List.length h
    simp at hlen
    omega
  · have hc' : isWs c = false := by simpa using hc
    rw [collapse_cons_nws true c cs hc'] at h
    exact ⟨hc', (List.cons.inj h).2⟩

theorem inv_collapse_false (c : Char) (cs : List Char)
    (h : collapseWsAux false (c :: cs) = c :: cs) :
    (isWs c = true ∧ c = ' ' ∧ collapseWsAux true cs = cs) ∨
      (isWs c = false ∧ collapseWsAux false cs = cs) := by
  by_cases hc : isWs c = true
  · left
    rw [collapse_cons_ws_f c cs hc] at h
    obtain ⟨h1, h2⟩ := List.cons.inj h
    exact ⟨hc, h1.symm, h2⟩
  · right
    have hc' : isWs c = false := by simpa using hc
    rw [collapse_cons_nws false c cs hc'] at h
    exact ⟨hc', (List.cons.inj h).2⟩

theorem dropTrail_cons_of_nil (p : Char → Bool) (c : Char) (cs : List Char)
    (h : dropTrail p cs = []) : dropTrail p (c :: cs) = if p c then [] else [c] := by
  simp only [dropTrail, h]

theorem dropTrail_cons_of_cons (p : Char → Bool) (c d : Char) (cs ds : List Char)
    (h : dropTrail p cs = d :: ds) : dropTrail p (c :: cs) = c :: d :: ds := by
  simp only [dropTrail, h]

theorem good_dropWhile (m : List Char) (h : collapseWsAux false m = m) :
    collapseWsAux false (m.dropWhile isWs) = m.dropWhile isWs := by
  cases m with
  | nil => rfl
  | cons c cs =>
    rcases inv_collapse_false c cs h with ⟨hws, hsp, hgood⟩ | ⟨hws, hgood⟩
    · rw [List.dropWhile_cons_of_pos (by simpa using hws)]
      cases cs with
      | nil => rfl
      | cons d ds =>
        obtain ⟨hd, hgd⟩ := inv_collapse_true d ds hgood
        rw [List.dropWhile_cons_of_neg (by simp [hd])]
        rw [collapse_cons_nws false d ds hd, hgd]
    · rw [List.dropWhile_cons_of_neg (by simp [hws])]
      exact h

theorem good_dropTrail (m : List Char) :
    ∀ b, collapseWsAux b m = m → collapseWsAux b (dropTrail isWs m) = dropTrail isWs m := by
  induction m with
  | nil => intro b _; rfl
  | cons c cs ih =>
    intro b hb
    cases hr : dropTrail isWs cs with
    | nil =>
      rw [dropTrail_cons_of_nil isWs c cs hr]
      cases b
      · rcases inv_collapse_false c cs hb with ⟨hws, hsp, hgood⟩ | ⟨hws, hgood⟩
        · rw [if_pos hws]
          rfl
        · rw [if_neg (by simp [hws])]
          rw [collapse_cons_nws false c [] hws]
          rfl
      · obtain ⟨hws, hgood⟩ := inv_collapse_true c cs hb
        rw [if_neg (by simp [hws])]
        rw [collapse_cons_nws true c [] hws]
        rfl
    | cons d ds =>
      rw [dropTrail_cons_of_cons isWs c d cs ds hr]
      cases b
      · rcases inv_collapse_false c cs hb with ⟨hws, hsp, hgood⟩ | ⟨hws, hgood⟩
        · have hgr := ih true hgood
          rw [hr] at hgr
          subst hsp
          rw [collapse_cons_ws_f ' ' (d :: ds) (by decide)]
          rw [show collapseWsAux true (d :: ds) = d :: ds from hgr]
        · have hgr := ih false hgood
          rw [hr] at hgr
          rw [collapse_cons_nws false c (d :: ds) hws, hgr]
      · obtain ⟨hws, hgood⟩ := inv_collapse_true c cs hb
        have hgr := ih false hgood
        rw [hr] at hgr
        rw [collapse_cons_nws true c (d :: ds) hws, hgr]

theorem mem_dropTrail (p : Char → Bool) (m : List Char) (c : Char)
    (h : c ∈ dropTrail p m) : c ∈ m := by
  induction m with
  | nil => simpa [dropTrail] using h
  | cons d ds ih =>
    rcases hr : dropTrail p ds with _ | ⟨e, es⟩
    · rw [dropTrail_cons_of_nil p d ds hr] at h
      split_ifs at h
      · simp at h
      · simp at h
        simp [h]
    · rw [dropTrail_cons_of_cons p d e ds es hr] at h
      rcases List.mem_cons.mp h with h1 | h1
      · simp [h1]
      · exact List.mem_cons_of_mem _ (ih (hr ▸ h1))

theorem dropTrail_idem (p : Char → Bool) (m : List Char) :
    dropTrail p (dropTrail p m) = dropTrail p m := by
  induction m with
  | nil => rfl
  | cons c cs ih =>
    rcases hr : dropTrail p cs with _ | ⟨d, ds⟩
    · rw [dropTrail_cons_of_nil p c cs hr]
      split_ifs with hc
      · rfl
      · rw [dropTrail_cons_of_nil p c [] rfl, if_neg hc]
    · rw [dropTrail_cons_of_cons p c d cs ds hr]
      have ih' : dropTrail p (d :: ds) = d :: ds := by rw [← hr, ih, hr]
      exact dropTrail_cons_of_cons p c d (d :: ds) ds ih'

theorem dropTrail_head (p : Char → Bool) (c : Char) (cs : List Char) :
    dropTrail p (c :: cs) = [] ∨ ∃ r, dropTrail p (c :: cs) = c :: r := by
  rcases hr : dropTrail p cs with _ | ⟨d, ds⟩
  · rw [dropTrail_cons_of_nil p c cs hr]
    split_ifs
    · exact Or.inl rfl
    · exact Or.inr ⟨[], rfl⟩
  · rw [dropTrail_cons_of_cons p c d cs ds hr]
    exact Or.inr ⟨d :: ds, rfl⟩

theorem head_dropWhile_not (p : Char → Bool) (l : List Char) (c : Char) (cs : List Char)
    (h : l.dropWhile p = c :: cs) : p c = false := by
  induction l with
  | nil => simp at h
  | cons d ds ih =>
    by_cases hd : p d = true
    · rw [List.dropWhile_cons_of_pos hd] at h
      exact ih h
    · have hd' : p d = false := by simpa using hd
      rw [List.dropWhile_cons_of_neg (by simp [hd'])] at h
      obtain ⟨h1, _⟩ := List.cons.inj h
      exact h1 ▸ hd'

theorem dropWhile_dropTrail_dropWhile (p : Char → Bool) (l : List Char) :
    List.dropWhile p (dropTrail p (List.dropWhile p l)) = dropTrail p (List.dropWhile p l) := by
  cases hm : List.dropWhile p l with
  | nil => rfl
  | cons c cs =>
    have hc : p c = false := head_dropWhile_not p l c cs hm
    rcases dropTrail_head p c cs with h1 | ⟨r, h1⟩
    · rw [h1]; rfl
    · rw [h1, List.dropWhile_cons_of_neg (by simp [hc])]

theorem stripSp_idem (l : List Char) : stripSp (stripSp l) = stripSp l := by
  unfold stripSp
  rw [dropWhile_dropTrail_dropWhile, dropTrail_idem]

theorem map_eq_self_of_mem {f : Char → Char} {l : List Char} (h : ∀ a ∈ l, f a = a) :
    l.map f = l := by
  induction l with
  | nil => rfl
  | cons c cs ih =>
    simp only [List.map_cons]
    rw [h c (List.mem_cons_self _ _), ih (fun a ha => h a (List.mem_cons_of_mem _ ha))]

theorem normalizeText_eq_pipe (t : List Char) (th uk : Bool) (ht : t ≠ []) :
    normalizeText t th uk true = stripSp (collapseWs (t.map (pipeChar th uk))) := by
  unfold normalizeText
  rw [if_neg ht]
  cases th <;> cases uk <;>
    (simp only [List.map_map, Bool.false_eq_true, if_false, if_true]
     refine congrArg _ (congrArg _ (List.map_congr_left (fun a _ => ?_)))
     simp [pipeChar, Function.comp])

theorem normalizeText_trim_idem (t : List Char) (th uk : Bool) :
    normalizeText (normalizeText t th uk true) th uk true = normalizeText t th uk true := by
  by_cases ht : t = []
  · subst ht
    rfl
  · rw [normalizeText_eq_pipe t th uk ht]
    by_cases hrn : stripSp (collapseWs (t.map (pipeChar th uk))) = []
    · rw [hrn]
      rfl
    · rw [normalizeText_eq_pipe _ th uk hrn]
      have hmem : ∀ c ∈ stripSp (collapseWs (t.map (pipeChar th uk))), pipeChar th uk c = c := by
        intro c hc
        have h0 : c ∈ List.dropWhile isWs (collapseWs (t.map (pipeChar th uk))) :=
          mem_dropTrail _ _ _ hc
        have h1 : c ∈ collapseWs (t.map (pipeChar th uk)) :=
          List.Sublist.mem h0 (List.dropWhile_sublist _)
        rcases mem_collapseWsAux false _ c h1 with h2 | h2
        · rw [h2]
          exact pipeChar_space th uk
        · rcases List.mem_map.mp h2 with ⟨a, _, ha⟩
          rw [← ha, pipeChar_idem]
      rw [map_eq_self_of_mem hmem]
      have hgood : collapseWsAux false (stripSp (collapseWs (t.map (pipeChar th uk)))) =
          stripSp (collapseWs (t.map (pipeChar th uk))) := by
        unfold stripSp
        exact good_dropTrail _ false (good_dropWhile _ (collapseWsAux_idem _ false))
      rw [show collapseWs (stripSp (collapseWs (t.map (pipeChar th uk)))) =
          stripSp (collapseWs (t.map (pipeChar th uk))) from hgood]
      exact stripSp_idem _

/-! ## Helper lemmas for the claims -/

theorem partBlocked_nil (p : Part) : partBlocked [] p = none := by
  cases hfn : p.filename with
  | none => simp [partBlocked, hfn]
  | some fn =>
    simp only [partBlocked, hfn]
    by_cases h1 : fn = []
    · rw [if_pos h1]
    · rw [if_neg h1]
      by_cases h2 : startsWithL imageMimeStart (lowerL p.contentTypeRaw) = true
      · rw [if_pos h2]
      · rw [if_neg h2]
        by_cases h3 : extOf (decodeMimeWords fn) ∈ imageExts
        · rw [if_pos h3]
        · rw [if_neg h3,
            if_neg (by simp : ¬(extOf (decodeMimeWords fn) ∈ ([] : List (List Char))))]

theorem detectBlockedAttachment_nil (msg : MailMessage) :
    detectBlockedAttachment msg [] = none := by
  unfold detectBlockedAttachment
  rw [List.findSome?_eq_none_iff]
  intro p _
  exact partBlocked_nil p

theorem body_eq_plains_join (msg : MailMessage) (h : (collectedParts msg).1 ≠ []) :
    (extractSubjectAndBody msg).2 = List.intercalate nlStr (collectedParts msg).1 := by
  simp only [extractSubjectAndBody]
  rw [if_pos h]

theorem all_ws_collapse_true (l : List Char) (h : ∀ c ∈ l, isWs c = true) :
    collapseWsAux true l = [] := by
  induction l with
  | nil => rfl
  | cons c cs ih =>
    rw [collapse_cons_ws_t c cs (h c (List.mem_cons_self _ _))]
    exact ih (fun a ha => h a (List.mem_cons_of_mem _ ha))

theorem normalizeText_wsOnly (k : List Char) (th uk : Bool)
    (hk : ∀ c ∈ k, isWs c = true) : normalizeText k th uk true = [] := by
  by_cases hke : k = []
  · subst hke
    rfl
  · rw [normalizeText_eq_pipe k th uk hke]
    have hall : ∀ c ∈ k.map (pipeChar th uk), isWs c = true := by
      intro c hc
      rcases List.mem_map.mp hc with ⟨a, ha, haeq⟩
      rw [← haeq]
      exact isWs_pipeChar_of_isWs th uk a (hk a ha)
    cases hm : k.map (pipeChar th uk) with
    | nil => rfl
    | cons c cs =>
      rw [hm] at hall
      show stripSp (collapseWsAux false (c :: cs)) = []
      rw [collapse_cons_ws_f c cs (hall c (List.mem_cons_self _ _)),
        all_ws_collapse_true cs (fun a ha => hall a (List.mem_cons_of_mem _ ha))]
      decide

theorem find?_map_filter_ws (l : List (List Char)) (th uk : Bool)
    (p : List Char → Bool) (hp : p [] = false) :
    (((l.filter (fun k => !(k.all isWs))).map
        (fun k => normalizeText k th uk true)).find? p) =
      ((l.map (fun k => normalizeText k th uk true)).find? p) := by
  induction l with
  | nil => rfl
  | cons k ks ih =>
    by_cases hk : k.all isWs = true
    · have hnorm : normalizeText k th uk true = [] :=
        normalizeText_wsOnly k th uk (fun c hc => List.all_eq_true.mp hk c hc)
      have hfil : List.filter (fun k => !(k.all isWs)) (k :: ks) =
          List.filter (fun k => !(k.all isWs)) ks :=
        List.filter_cons_of_neg (by simp [hk])
      have hfind : List.find? p ((k :: ks).map (fun k => normalizeText k th uk true)) =
          List.find? p (ks.map (fun k => normalizeText k th uk true)) := by
        rw [List.map_cons]
        refine List.find?_cons_of_neg _ ?_
        rw [hnorm, hp]
        simp
      rw [hfil, hfind]
      exact ih
    · have hfil : List.filter (fun k => !(k.all isWs)) (k :: ks) =
          k :: List.filter (fun k => !(k.all isWs)) ks :=
        List.filter_cons_of_pos (by simp [hk])
      rw [hfil, List.map_cons, List.map_cons]
      cases hpk : p (normalizeText k th uk true) with
      | true =>
        rw [List.find?_cons_of_pos _ hpk, List.find?_cons_of_pos _ hpk]
      | false =>
        rw [List.find?_cons_of_neg _ (by simp [hpk]),
          List.find?_cons_of_neg _ (by simp [hpk])]
        exact ih

/-! ## The claims -/

/-- C1: for every message and every rule set, when the attachment scan finds
a blocked-extension non-image attachment with decoded filename f and the
blocklist also has a keyword hit in the normalized subject and body, the
verdict is pass_through false with reason attachment and detail f; keyword
evaluation does not decide the verdict on this path. -/
theorem claim1_attachment_precedence (msg : MailMessage) (cfg : Config) (f : List Char)
    (hdet : detectBlockedAttachment msg (cfg.blockedExtensions.getD []) = some f)
    (hkw : keywordHit msg cfg = true) :
    filterMessage msg cfg =
      ⟨false, some reasonAttachment, some f, (extractSubjectAndBody msg).1⟩ := by
  simp only [filterMessage]
  rw [hdet]

/-- Witness for C1 at a concrete message carrying both an exe attachment and
a matching keyword. -/
theorem claim1_witness :
    detectBlockedAttachment msgC1 (cfgC1.blockedExtensions.getD []) = some "run.exe".toList ∧
      keywordHit msgC1 cfgC1 = true ∧
      filterMessage msgC1 cfgC1 =
        ⟨false, some reasonAttachment, some "run.exe".toList,
          (extractSubjectAndBody msgC1).1⟩ :=
  ⟨by decide, by decide,
    claim1_attachment_precedence msgC1 cfgC1 "run.exe".toList (by decide) (by decide)⟩

/-- C2 counterexample: with trim_spaces disabled, a blocklist whose only
keyword is a single space (whitespace-only) produces a keyword verdict on a
message with empty subject and body, because the normalized keyword stays
non-empty and the space-joined haystack always contains a space. -/
theorem claim2_counterexample :
    ((cfgWsKeyword.blocklist.getD []).all (fun k => k.all isWs)) = true ∧
      filterMessage msgEmptyPlain cfgWsKeyword =
        ⟨false, some reasonKeyword, some [' '], []⟩ :=
  ⟨by decide, by decide⟩

/-- C2 amended: provided trim_spaces resolves to true (the source default),
removing every empty or whitespace-only keyword from the blocklist does not
change the verdict of filter_message, so such keywords never cause a
keyword verdict. -/
theorem claim2_amended (msg : MailMessage) (cfg : Config)
    (htrim : cfg.trimSpaces.getD true = true) :
    filterMessage msg (dropWsKeywords cfg) = filterMessage msg cfg := by
  obtain ⟨be, bl, th, uk, tr⟩ := cfg
  simp only [filterMessage, dropWsKeywords]
  rw [htrim]
  cases hdet : detectBlockedAttachment msg (be.getD []) with
  | some f => rfl
  | none =>
    simp only [Option.getD_some]
    rw [find?_map_filter_ws (bl.getD []) (th.getD true) (uk.getD true) _ rfl]

/-- Witness for the amended C2 at a concrete configuration with
trim_spaces left at its default. -/
theorem claim2_witness :
    (cfgC1.trimSpaces.getD true = true) ∧
      filterMessage msgEmptyPlain (dropWsKeywords cfgC1) =
        filterMessage msgEmptyPlain cfgC1 :=
  ⟨by decide, claim2_amended msgEmptyPlain cfgC1 (by decide)⟩

/-- C3 counterexample: a message holding a non-attachment text/plain part
whose declared charset is unknown (so its decoding raises and the part is
skipped) together with a text/html part gets its body from the html
fallback, so html content appears in the body although a text/plain part
exists. -/
theorem claim3_counterexample :
    (∃ p ∈ walk msgBogusCharset, lowerL p.contentTypeRaw = textPlainType ∧
        containsSub (lowerL p.dispositionRaw) attachmentWord = false) ∧
      (extractSubjectAndBody msgBogusCharset).2 = "hello from html".toList :=
  ⟨by decide, by decide⟩

/-- C3 amended: whenever at least one non-attachment text/plain part decodes
successfully, the body is exactly the newline-join of the collected
text/plain parts, so no text/html content appears and the html fallback is
unused. -/
theorem claim3_amended (msg : MailMessage) (h : (collectedParts msg).1 ≠ []) :
    (extractSubjectAndBody msg).2 = List.intercalate nlStr (collectedParts msg).1 :=
  body_eq_plains_join msg h

/-- Witness for the amended C3 at a message with one plain part and one html
part. -/
theorem claim3_witness :
    (collectedParts msgPlainAndHtml).1 ≠ [] ∧
      (extractSubjectAndBody msgPlainAndHtml).2 =
        List.intercalate nlStr (collectedParts msgPlainAndHtml).1 :=
  ⟨by decide, claim3_amended msgPlainAndHtml (by decide)⟩

/-- C4: filter_message is total by construction (the embedding is a Lean
function into FilterResult, mirroring the raise-free source), and a
configuration missing the attachment and keyword keys behaves exactly as the
configuration with an empty blocked-extension set and an empty blocklist;
with no rules the verdict is the pass verdict. -/
theorem claim4_missing_keys_default (msg : MailMessage) (th uk tr : Option Bool) :
    filterMessage msg ⟨none, none, th, uk, tr⟩ =
        filterMessage msg ⟨some [], some [], th, uk, tr⟩ ∧
      filterMessage msg ⟨none, none, th, uk, tr⟩ =
        ⟨true, none, none, (extractSubjectAndBody msg).1⟩ := by
  refine ⟨rfl, ?_⟩
  simp only [filterMessage, Option.getD_none]
  rw [detectBlockedAttachment_nil msg]
  rfl

/-- C5 counterexample: the source decodes payload bytes with errors set to
ignore, so the invalid byte 0xFF yields the empty decoded string, not a
replacement character; the spec-following decoder yields U+FFFD instead. -/
theorem claim5_counterexample :
    decodePartText badBytesPart = some [] ∧
      specReplaceDecode [0xFF] = ['�'] ∧
      decodeUtf8Ignore [0xFF] ≠ specReplaceDecode [0xFF] :=
  ⟨by decide, by decide, by decide⟩

/-- C5 amended: decoding never raises to the caller (the embedding is total
and the caller consumes an Option), and invalid byte sequences are dropped
from the best-effort decoded string rather than replaced: a leading invalid
lead byte 0xFF or a leading stray continuation byte 0x80 contributes nothing
to the output. -/
theorem claim5_amended (bs : List Nat) :
    decodeUtf8Ignore (0xFF :: bs) = decodeUtf8Ignore bs ∧
      decodeUtf8Ignore (0x80 :: bs) = decodeUtf8Ignore bs := by
  rcases bs with _ | ⟨c, _ | ⟨d, _ | ⟨e, rest⟩⟩⟩ <;>
    exact ⟨rfl, rfl⟩

/-- C6: normalize_text is idempotent whenever trim_spaces is on, for every
input text and every combination of the other two option flags. -/
theorem claim6_normalize_idempotent (t : List Char) (th uk : Bool) :
    normalizeText (normalizeText t th uk true) th uk true = normalizeText t th uk true :=
  normalizeText_trim_idem t th uk

/-- C7: the footer rule of reduce_noise never fires, because its pattern
anchors a start-of-line assertion without re.MULTILINE right after a
consumed newline; on a text with a line of four equals signs the output
keeps that line and everything after it, contradicting the claim that
everything from the separator line onward is removed. -/
theorem claim7_footer_not_removed :
    reduceNoise "hello\n====\nbye".toList = "hello\n====\nbye".toList ∧
      containsSub (reduceNoise "hello\n====\nbye".toList) "\n====\nbye".toList = true :=
  ⟨by decide, by decide⟩

/-- C8 counterexample: a message with two text/plain parts a and b gets body
a, newline, b: the parts are joined by a single newline, not separated by a
blank line. -/
theorem claim8_counterexample :
    (collectedParts msgTwoPlain).1 = ["a".toList, "b".toList] ∧
      (extractSubjectAndBody msgTwoPlain).2 = "a\nb".toList ∧
      "a\nb".toList ≠ "a\n\nb".toList :=
  ⟨by decide, by decide, by decide⟩

/-- C8 amended: for every message with two or more qualifying text/plain
parts, the body is their concatenation in document order joined by a single
newline (not a blank line). -/
theorem claim8_amended (msg : MailMessage) (h : 2 ≤ (collectedParts msg).1.length) :
    (extractSubjectAndBody msg).2 = List.intercalate nlStr (collectedParts msg).1 := by
  apply body_eq_plains_join
  intro hnil
  rw [hnil] at h
  simp at h

/-- Witness for the amended C8 at the two-part message. -/
theorem claim8_witness :
    2 ≤ (collectedParts msgTwoPlain).1.length ∧
      (extractSubjectAndBody msgTwoPlain).2 =
        List.intercalate nlStr (collectedParts msgTwoPlain).1 :=
  ⟨by decide, claim8_amended msgTwoPlain (by decide)⟩

/-- C9 counterexample: when the blocked-extension set contains the empty
string, a dotless filename (whose derived extension is the empty string)
does match, and the message is excluded with an attachment verdict. -/
theorem claim9_counterexample :
    ('.' ∉ decodeMimeWords "README".toList) ∧
      filterMessage msgDotless cfgEmptyStringExt =
        ⟨false, some reasonAttachment, some "README".toList, []⟩ :=
  ⟨by decide, by decide⟩

/-- C9 amended: for every blocked-extension set not containing the empty
string, a part whose decoded filename has no dot is never reported by the
attachment check. -/
theorem claim9_amended (exts : List (List Char)) (p : Part) (fn : List Char)
    (hne : ([] : List Char) ∉ exts) (hfn : p.filename = some fn)
    (hdot : '.' ∉ decodeMimeWords fn) :
    partBlocked exts p = none := by
  have hext : extOf (decodeMimeWords fn) = [] := by
    unfold extOf
    rw [if_neg hdot]
  simp only [partBlocked, hfn]
  rw [hext]
  by_cases h1 : fn = []
  · rw [if_pos h1]
  · rw [if_neg h1]
    by_cases h2 : startsWithL imageMimeStart (lowerL p.contentTypeRaw) = true
    · rw [if_pos h2]
    · rw [if_neg h2,
        if_neg (by simp [imageExts] : ¬(([] : List Char) ∈ imageExts)), if_neg hne]

/-- Witness for the amended C9: a dotless filename against the exe rule. -/
theorem claim9_witness :
    (([] : List Char) ∉ ["exe".toList]) ∧
      readmePart.filename = some "README".toList ∧
      ('.' ∉ decodeMimeWords "README".toList) ∧
      partBlocked ["exe".toList] readmePart = none :=
  ⟨by decide, rfl, by decide,
    claim9_amended ["exe".toList] readmePart "README".toList (by decide) rfl (by decide)⟩

/-- C10: a part whose decoded filename has a case-folded extension in the
image-extension set is always skipped by the attachment check, for every
blocked-extension set and every declared content type. -/
theorem claim10_image_extension_skipped (exts : List (List Char)) (p : Part)
    (fn : List Char) (hfn : p.filename = some fn)
    (himg : extOf (decodeMimeWords fn) ∈ imageExts) :
    partBlocked exts p = none := by
  simp only [partBlocked, hfn]
  by_cases h1 : fn = []
  · rw [if_pos h1]
  · rw [if_neg h1]
    by_cases h2 : startsWithL imageMimeStart (lowerL p.contentTypeRaw) = true
    · rw [if_pos h2]
    · rw [if_neg h2, if_pos himg]

/-- Witness for C10: a jpg-named attachment with a non-image content type is
not reported even when jpg is blocked. -/
theorem claim10_witness :
    virusJpgPart.filename = some "virus.jpg".toList ∧
      extOf (decodeMimeWords "virus.jpg".toList) ∈ imageExts ∧
      partBlocked ["jpg".toList] virusJpgPart = none :=
  ⟨rfl, by decide,
    claim10_image_extension_skipped ["jpg".toList] virusJpgPart "virus.jpg".toList rfl
      (by decide)⟩

end FeScraping
